import Mathlib

/-!  Shallow embedding of the loads-broker Run Orchestrator and Fleet Pool
(files loadsbroker/aws.py, loadsbroker/broker.py, loadsbroker/db.py,
loadsbroker/extensions.py, loadsbroker/webapp/api.py), together with
theorems checking the specification's claims against the embedded code.

Modelling conventions:
* datetimes are integers (seconds); `datetime.timedelta(minutes=2)` is `120`;
* a fallible call is modelled with `Option`/`Except` (`none` = the call raised);
* stateful methods become pure functions returning the new state;
* blocking calls that the orchestrator awaits sequentially are modelled as
  sequential function application. -/

namespace Loads

/-- Run states, from loadsbroker/db.py (integer constants). -/
def INITIALIZING : Nat := 0

/-- Run state RUNNING, from loadsbroker/db.py. -/
def RUNNING : Nat := 1

/-- Run state TERMINATING, from loadsbroker/db.py. -/
def TERMINATING : Nat := 2

/-- Run state COMPLETED, from loadsbroker/db.py. -/
def COMPLETED : Nat := 3

/-- Supported regions, from loadsbroker/aws.py `AWS_REGIONS` (the entries that
are active in the source tuple; the commented-out regions are omitted there). -/
def AWS_REGIONS : List String := ["eu-west-1", "us-east-1", "us-west-1", "us-west-2"]

/-- One EC2 instance as the broker sees it: the boto instance attributes the
embedded code reads (`state`, `instance_type`, `launch_time`), plus the
per-instance extension state (`nonresponsive`, from aws.py `ExtensionState`)
and the result of `state.docker.get_containers()` used by extensions.py
(`none` means the inventory call raises; `some imgs` is the list of the
`Image` fields of the returned containers). -/
structure Inst where
  instId : Nat
  state : String
  instanceType : String
  launchTime : Int
  nonresponsive : Bool
  containers : Option (List String)
deriving DecidableEq, Inhabited

/-- aws.py `available_instance`: usable iff running, or pending and launched
strictly later than two minutes ago (`oldest = datetime.today() -
timedelta(minutes=2)`; `if oldest < launched: return True`). -/
def available_instance (now : Int) (inst : Inst) : Bool :=
  if inst.state = "running" then true
  else if inst.state = "pending" then
    decide (now - 120 < inst.launchTime)
  else false

/-- The mutable state of aws.py `EC2Pool` that `request_instances` touches:
`_recovered` (keyed by `(run_id, uuid)`) and `_instances` (the per-region free
lists).  An absent key and an empty bucket are observationally identical in the
source (`if key not in self._recovered: return []`), so both maps are total
functions into lists. -/
structure PoolState where
  recovered : String × String → List Inst
  free : String → List Inst

/-- aws.py `EC2Pool._locate_recovered_instances`: return the bucket for
`(run_id, uuid)` and delete it from `_recovered`. -/
def locate_recovered_instances (p : PoolState) (run_id uuid : String) :
    List Inst × PoolState :=
  (p.recovered (run_id, uuid),
   { p with recovered := fun k => if k = (run_id, uuid) then [] else p.recovered k })

/-- The scan loop of aws.py `EC2Pool._locate_existing_instances`: walk the
region free list, moving each instance into `instances` (available and of the
requested type) or `remaining` (everything else), and break as soon as
`len(instances) >= count` — a check made after every element, including the
ones routed to `remaining`.  Returns `(instances, remaining, scanned)` where
`scanned = len(instances) + len(remaining)` is the source's `removed`.
`count` is an `Int` because the caller passes `count - len(recovered)`, which
can be negative. -/
def locate_scan (now : Int) (count : Int) (instType : String) :
    List Inst → List Inst → List Inst → List Inst × List Inst × Nat
  | [], acc, rem => (acc, rem, 0)
  | i :: rest, acc, rem =>
    let matched := available_instance now i && decide (instType = i.instanceType)
    let acc' := if matched then acc ++ [i] else acc
    let rem' := if matched then rem else rem ++ [i]
    if (acc'.length : Int) ≥ count then (acc', rem', 1)
    else
      let r := locate_scan now count instType rest acc' rem'
      (r.1, r.2.1, r.2.2 + 1)

/-- aws.py `EC2Pool._locate_existing_instances`: run the scan over the region
free list and rebuild the free list as `region_instances[removed:] +
remaining`. -/
def locate_existing_instances (now : Int) (p : PoolState) (count : Int)
    (instType region : String) : List Inst × PoolState :=
  let regionInstances := p.free region
  let r := locate_scan now count instType regionInstances [] []
  (r.1,
   { p with free := fun reg =>
      if reg = region then regionInstances.drop r.2.2 ++ r.2.1 else p.free reg })

/-- aws.py `EC2Pool.request_instances`.  `runInstances num` stands for the
boto `conn.run_instances(ami, min_count=num, max_count=num, ...)` call and
returns the created instances.  Tagging does not change which instances are in
the returned collection, so it is modelled separately (see `tag_instance`);
the returned list is the `instances` list the source wraps in an
`EC2Collection`. -/
def request_instances (p : PoolState) (run_id uuid : String) (count : Nat)
    (instType region : String) (allocateMissing : Bool) (now : Int)
    (runInstances : Nat → List Inst) : Except String (List Inst × PoolState) :=
  if region ∉ AWS_REGIONS then .error ("Unknown region: " ++ region)
  else
    let r0 := locate_recovered_instances p run_id uuid
    let remainingCount : Int := (count : Int) - r0.1.length
    if !allocateMissing then .ok (r0.1, r0.2)
    else
      let r1 := locate_existing_instances now r0.2 remainingCount instType region
      let instances1 := r0.1 ++ r1.1
      let num : Int := (count : Int) - instances1.length
      let instances2 :=
        if num > 0 then instances1 ++ runInstances num.toNat else instances1
      .ok (instances2, r1.2)

/-- The tag retry loop of aws.py `EC2Pool.request_instances.tag_instance`:

    retries = 0
    while True:
        try:    await create_tags(...); break
        except:
            if retries > 5: raise
        retries += 1
        await sleep(1)

`fails k` says whether the `create_tags` attempt made with `retries = k`
raises.  `budget` is `6 - retries`, the number of failures that can still be
absorbed before `retries > 5` holds; the top-level call (`tag_instance`) uses
`budget = 6`, `retries = 0`, so `budget = 0` coincides exactly with
`retries > 5`.  Returns `(attempts, one-second waits, succeeded)`. -/
def tag_attempt_loop (fails : Nat → Bool) : Nat → Nat → Nat × Nat × Bool
  | 0, retries => if fails retries then (1, 0, false) else (1, 0, true)
  | b + 1, retries =>
    if fails retries then
      let r := tag_attempt_loop fails b (retries + 1)
      (r.1 + 1, r.2.1 + 1, r.2.2)
    else (1, 0, true)

/-- aws.py `tag_instance` for one instance: the retry loop entered with
`retries = 0`. -/
def tag_instance (fails : Nat → Bool) : Nat × Nat × Bool :=
  tag_attempt_loop fails 6 0

/-- The per-step collection of aws.py `EC2Collection`: its instances and the
flags the run manager reads and writes (`started`, `finished`, `local_dns`). -/
structure Coll where
  instances : List Inst
  started : Bool
  finished : Bool
  localDns : Bool
deriving DecidableEq, Inhabited

/-- Predicate of aws.py `EC2Collection.dead_instances`: state not in
`["pending", "running"]`, or flagged nonresponsive by an extension. -/
def is_dead (i : Inst) : Bool :=
  decide (i.state ∉ ["pending", "running"]) || i.nonresponsive

/-- aws.py `EC2Collection.dead_instances`. -/
def dead_instances (c : Coll) : List Inst :=
  c.instances.filter is_dead

/-- aws.py `EC2Collection.remove_dead_instances` (what awaiting it does to the
collection: every dead instance is removed from `self.instances` via
`remove_instances`; the detag/terminate IaaS calls do not affect membership). -/
def remove_dead_instances (c : Coll) : Coll :=
  { c with instances := c.instances.filter (fun i => !(is_dead i)) }

/-- The externally visible stop actions of broker.py `RunManager._stop_step`,
in source order: stop the step's docker containers, stop heka, stop dnsmasq. -/
inductive StopAction where
  | stopContainers
  | stopHeka
  | stopDns
deriving DecidableEq

/-- broker.py `RunManager._stop_step`: return unchanged when the collection is
already `finished`; otherwise mark it finished, stop the containers, stop
heka, stop dnsmasq when `local_dns` was used.  The final statement of the
source, `setlink.ec2_collection.remove_dead_instances()`, creates the
coroutine but never awaits it (no `yield`), so it has no effect on the
collection: the instance list is returned unchanged. -/
def stop_step (c : Coll) : List StopAction × Coll :=
  if c.finished then ([], c)
  else
    let c1 := { c with finished := true }
    ([StopAction.stopContainers, StopAction.stopHeka] ++
      (if c1.localDns then [StopAction.stopDns] else []), c1)

/-- Per-(run, step) record, from db.py `StepRecord`: the fields broker.py
writes in `_check_steps` (timestamps as naturals). -/
structure StepRecord where
  startedAt : Option Nat
  completedAt : Option Nat
  failed : Bool
deriving DecidableEq, Inhabited

/-- The start attempt of broker.py `RunManager._check_steps`:

    try:    yield self._start_step(setlink)
    except: setlink.step_record.failed = True
    setlink.step_record.started_at = datetime.utcnow()

`raises` says whether `_start_step` raised; `now` is the `utcnow()` value. -/
def start_step_pass (raises : Bool) (now : Nat) (rec : StepRecord) : StepRecord :=
  let rec1 := if raises then { rec with failed := true } else rec
  { rec1 with startedAt := some now }

/-- The stop wrapper `shutdown(setlink)` of broker.py
`RunManager._check_steps`:

    try:    yield self._stop_step(setlink)
    except: logger.error(...)
    setlink.step_record.completed_at = datetime.utcnow()

The record is updated the same way whether or not `_stop_step` raised. -/
def shutdown_step_pass (raises : Bool) (now : Nat) (rec : StepRecord) : StepRecord :=
  let _ := raises
  { rec with completedAt := some now }

/-- broker.py `RunManager._initialize` as a transition on `run.state`: the
state write `self.run.state = RUNNING` is its last step, so a raise anywhere
inside leaves the state unchanged (carried in `Except.error`); when the run is
already `RUNNING` (recovery) the method returns early. -/
def initialize_phase (raises : Bool) (st : Nat) : Except Nat Nat :=
  if raises then .error st
  else if st = RUNNING then .ok st
  else .ok RUNNING

/-- broker.py `RunManager._run` as a transition on `run.state`: skipped unless
the state is `RUNNING`; the loop body may raise (state unchanged); on normal
exit the state becomes `TERMINATING`. -/
def run_phase (raises : Bool) (st : Nat) : Except Nat Nat :=
  if st ≠ RUNNING then .ok st
  else if raises then .error st
  else .ok TERMINATING

/-- broker.py `RunManager._shutdown` as a transition on `run.state`: skipped
unless the state is `TERMINATING`; stopping the step links may raise (state
unchanged); otherwise the state becomes `COMPLETED`. -/
def shutdown_phase (raises : Bool) (st : Nat) : Except Nat Nat :=
  if st ≠ TERMINATING then .ok st
  else if raises then .error st
  else .ok COMPLETED

/-- broker.py `RunManager._cleanup`: stops step links and releases collections
but never assigns `self.run.state`, so as a state transition it is the
identity. -/
def cleanup_phase (st : Nat) : Nat := st

/-- broker.py `RunManager.start`:

    try:     yield self._initialize(); yield self._run(); yield self._shutdown()
    except:  yield self._cleanup(exc=True)
    else:    yield self._cleanup()

Returns the run's final state. -/
def start_run (initRaises runRaises shutdownRaises : Bool) (st0 : Nat) : Nat :=
  match initialize_phase initRaises st0 with
  | .error st => cleanup_phase st
  | .ok st1 =>
    match run_phase runRaises st1 with
    | .error st => cleanup_phase st
    | .ok st2 =>
      match shutdown_phase shutdownRaises st2 with
      | .error st => cleanup_phase st
      | .ok st3 => cleanup_phase st3

/-- The externally visible effects of webapp/api.py `RunHandler.delete`, in
call order: `self.broker.abort_run(run_id)` then `self.broker.delete_run`. -/
inductive DelAction where
  | abortRun
  | deleteRun
deriving DecidableEq

/-- Result of webapp/api.py `RunHandler.delete`: HTTP status, broker calls
made (in order), whether the run row was deleted, and the run's state
afterwards (`none` when there is no row). -/
structure DeleteResponse where
  status : Nat
  actions : List DelAction
  runDeleted : Bool
  finalState : Option Nat
deriving DecidableEq

/-- Python truthiness of `self.get_argument('purge', False)`: the default
`False` when the query argument is absent, otherwise the argument's string
value, which is truthy exactly when non-empty.  The value is never parsed, so
`"0"` is truthy. -/
def truthy_arg (arg : Option String) : Bool :=
  match arg with
  | none => false
  | some s => decide (s ≠ "")

/-- webapp/api.py `RunHandler.delete` for a run id resolving to `run` (the
run's state, or `none` when the uuid is unknown): 404 when unknown; 400 when
the state is COMPLETED and `purge` is falsy; otherwise abort the run, then
either mark it COMPLETED (no purge) or delete the row (purge).  The optional
`terminate` branch is independent of the claim and omitted. -/
def run_handler_delete (run : Option Nat) (purgeArg : Option String) :
    DeleteResponse :=
  match run with
  | none => ⟨404, [], false, none⟩
  | some st =>
    if st = COMPLETED ∧ truthy_arg purgeArg = false then ⟨400, [], false, some st⟩
    else if truthy_arg purgeArg = false then
      ⟨200, [DelAction.abortRun], false, some COMPLETED⟩
    else ⟨200, [DelAction.abortRun, DelAction.deleteRun], true, none⟩

/-- The per-instance closure `has_container` of extensions.py
`Docker.is_running`: when `get_containers()` raises, mark the instance
nonresponsive if `prune` and answer `not prune`; otherwise answer whether any
returned container's `Image` field contains `container_name` as a substring.
Returns the (possibly updated) instance and the per-instance result. -/
def has_container (prune : Bool) (name : String) (i : Inst) : Inst × Bool :=
  match i.containers with
  | none => (if prune then { i with nonresponsive := true } else i, !prune)
  | some imgs => (i, imgs.any (fun img => decide (name.toList <:+: img.toList)))

/-- The fan-out of extensions.py `Docker.is_running`: `has_container` runs on
every instance whose state is `"running"`; other instances are untouched and
contribute no result.  Returns the updated instance list and the per-instance
results in instance order. -/
def is_running_scan (prune : Bool) (name : String) :
    List Inst → List Inst × List Bool
  | [] => ([], [])
  | i :: rest =>
    let p := is_running_scan prune name rest
    if i.state = "running" then
      let hc := has_container prune name i
      (hc.1 :: p.1, hc.2 :: p.2)
    else (i :: p.1, p.2)

/-- extensions.py `Docker.is_running`: the collection with instance flags
updated, and `any(results)`. -/
def is_running (prune : Bool) (name : String) (c : Coll) : Coll × Bool :=
  let p := is_running_scan prune name c.instances
  ({ c with instances := p.1 }, p.2.any (fun b => b))

/-- A step link as the scheduler of broker.py `RunManager._check_steps` sees
it: the step's `run_delay` and the step record's `started_at`.  The start
timestamps are modelled as the global sequence number of the start (starts are
strictly sequential, and successive `datetime.utcnow()` readings are
nondecreasing, so sequence order determines timestamp order). -/
structure SLink where
  runDelay : Nat
  startedAt : Option Nat
deriving DecidableEq, Inhabited

/-- db.py `StepRecord.should_start`: false when `started_at` is already set,
otherwise `now >= run.started_at + step.run_delay`. -/
def should_start (runStart now : Nat) (s : SLink) : Bool :=
  s.startedAt.isNone && decide (runStart + s.runDelay ≤ now)

/-- The candidate computation of `_check_steps`:
`starts = list(filter(self._should_start, self._set_links))`, as the list of
indices into the run's step-link list. -/
def sched_candidates (runStart now : Nat) (links : List SLink) : List Nat :=
  (List.range links.length).filter (fun k => should_start runStart now (links.getD k default))

/-- Sort key of `starts.sort(key=lambda x: x.step.run_delay)` for index `k`. -/
def sched_key (links : List SLink) (k : Nat) : Nat :=
  (links.getD k default).runDelay

/-- Stable insertion of an index into an index list sorted by ascending
`key`: the new element goes before the first element with a strictly greater
key. -/
def insert_by_key (key : Nat → Nat) (i : Nat) : List Nat → List Nat
  | [] => [i]
  | j :: rest =>
    if key j < key i then j :: insert_by_key key i rest else i :: j :: rest

/-- Stable sort by ascending `key`.  Python's `list.sort` is a stable sort;
for a total key order every stable sort computes the same list, so insertion
sort is an exact model of `starts.sort(key=lambda x: x.step.run_delay)`. -/
def sort_by_key (key : Nat → Nat) : List Nat → List Nat
  | [] => []
  | i :: rest => insert_by_key key i (sort_by_key key rest)

/-- One iteration of the start loop of `_check_steps`: the step record at
`idx` gets `started_at` (sequence number `counter`); `run_delay` is
untouched. -/
def start_one (counter idx : Nat) (links : List SLink) : List SLink :=
  links.set idx { links.getD idx default with startedAt := some counter }

/-- The start loop of `_check_steps`: `for setlink in starts: ...` — starts
are strictly sequential (each is awaited before the next), so the sequence
number increases by one per started step. -/
def start_all : Nat → List Nat → List SLink → List SLink
  | _, [], links => links
  | counter, i :: rest, links => start_all (counter + 1) rest (start_one counter i links)

/-- The sorted candidate list of one `_check_steps` pass. -/
def sched_sorted (runStart now : Nat) (links : List SLink) : List Nat :=
  sort_by_key (sched_key links) (sched_candidates runStart now links)

/-- One pass of `_check_steps` restricted to starting steps (the stop phase
does not write `started_at` or `run_delay`): filter by `should_start`, sort by
ascending `run_delay`, start sequentially.  Returns the updated links and the
next sequence number. -/
def sched_pass (runStart now counter : Nat) (links : List SLink) :
    List SLink × Nat :=
  (start_all counter (sched_sorted runStart now links) links,
   counter + (sched_sorted runStart now links).length)

/-- The `_run` polling loop of broker.py: one `_check_steps` pass per element
of `times` (the `utcnow()` reading of that pass).  Aborts and early exits only
shorten `times`. -/
def sched_loop (runStart : Nat) : List Nat → Nat → List SLink → List SLink × Nat
  | [], counter, links => (links, counter)
  | now :: rest, counter, links =>
    sched_loop runStart rest (sched_pass runStart now counter links).2
      (sched_pass runStart now counter links).1

/-- Scheduler invariant tying start sequence numbers to `run_delay`:
(1) every assigned sequence number is below the next free one;
(2) if a step with a larger delay has started, every step with a smaller
    delay has started;
(3) started steps with strictly smaller delay have no larger sequence
    number. -/
def SchedInv (counter : Nat) (links : List SLink) : Prop :=
  (∀ k t, k < links.length → (links.getD k default).startedAt = some t → t < counter) ∧
  (∀ k m, k < links.length → m < links.length →
    sched_key links k < sched_key links m →
    ((links.getD m default).startedAt).isSome = true →
    ((links.getD k default).startedAt).isSome = true) ∧
  (∀ k m a b, k < links.length → m < links.length →
    sched_key links k < sched_key links m →
    (links.getD k default).startedAt = some a →
    (links.getD m default).startedAt = some b → a ≤ b)

/-- Fixture: an instance recovered for the key `("run1", "step1")`. -/
def instA : Inst := ⟨1, "running", "t1.micro", 0, false, none⟩

/-- Fixture: a second instance recovered for the same key. -/
def instB : Inst := ⟨2, "running", "t1.micro", 0, false, none⟩

/-- Fixture: a pool whose recovery bucket for `("run1", "step1")` holds two
instances and whose free lists are empty. -/
def poolTwoRecovered : PoolState :=
  ⟨fun k => if k = ("run1", "step1") then [instA, instB] else [], fun _ => []⟩

/-- Fixture: a pool with nothing recovered and empty free lists. -/
def poolEmpty : PoolState := ⟨fun _ => [], fun _ => []⟩

/-- Fixture: an IaaS that returns exactly the requested number of fresh
instances. -/
def freshInstances (n : Nat) : List Inst :=
  List.replicate n ⟨9, "pending", "t1.micro", 0, false, none⟩

/-- Fixture: a pending instance whose launch time is exactly two minutes
before the observation time 120. -/
def instPendingBoundary : Inst := ⟨3, "pending", "t1.micro", 0, false, none⟩

/-- Fixture: an unstarted step record. -/
def recNone : StepRecord := ⟨none, none, false⟩

/-- Fixture: a dead instance (state `"stopped"`). -/
def instDead : Inst := ⟨7, "stopped", "t1.micro", 0, false, none⟩

/-- Fixture: an unfinished collection holding one dead instance, with local
DNS started. -/
def collWithDead : Coll := ⟨[instDead], true, false, true⟩

/-- Fixture: a collection already marked finished. -/
def collFinished : Coll := ⟨[], true, true, false⟩

/-- Fixture: a running instance whose container inventory call raises. -/
def instInventoryRaises : Inst := ⟨4, "running", "t1.micro", 0, false, none⟩

/-- Fixture: a collection holding one running instance whose inventory call
raises. -/
def collInventoryRaises : Coll := ⟨[instInventoryRaises], true, false, false⟩

/-- Fixture: two unstarted step links with run delays 0 and 1. -/
def linksTwo : List SLink := [⟨0, none⟩, ⟨1, none⟩]

/-- Scanning for free instances never selects more than `count` instances
when the accumulator is still strictly below `count` (in particular at most
`count` from an empty accumulator when `0 < count`). -/
theorem locate_scan_length_le (now : Int) (instType : String) (count : Int) :
    ∀ (l acc rem : List Inst), (acc.length : Int) < count →
      ((locate_scan now count instType l acc rem).1.length : Int) ≤ count := by
  intro l
  induction l with
  | nil => intro acc rem h; exact le_of_lt h
  | cons i rest ih =>
    intro acc rem h
    simp only [locate_scan]
    by_cases hm : (available_instance now i && decide (instType = i.instanceType)) = true
    · simp only [hm, if_true]
      by_cases hb : (((acc ++ [i]).length : Int) ≥ count)
      · simp only [if_pos hb]
        simp only [List.length_append, List.length_singleton]
        push_cast
        omega
      · simp only [if_neg hb]
        exact ih (acc ++ [i]) rem (by omega)
    · simp only [Bool.not_eq_true] at hm
      simp only [hm, Bool.false_eq_true, if_false]
      by_cases hb : ((acc.length : Int) ≥ count)
      · simp only [if_pos hb]
        exact le_of_lt h
      · simp only [if_neg hb]
        exact ih acc (rem ++ [i]) h

/-- Claim C1 (counterexample): with two instances already recovered for the
key and `count = 1`, `request_instances` with `allocate_missing` left true
returns a collection of 2 instances, not exactly `count`. -/
theorem claim_C1_counterexample :
    (request_instances poolTwoRecovered "run1" "step1" 1 "t1.micro" "us-west-2"
        true 0 freshInstances).toOption.map (fun r => r.1.length) = some 2 := by
  decide

/-- Claim C1 (amended): for a supported region, with `allocate_missing=false`
the returned collection is exactly the instances recovered for
`(run_id, uuid)`; with `allocate_missing` left true the collection has exactly
`count` instances provided strictly fewer than `count` instances were
recovered for the key and the IaaS returns every requested instance (when at
least `count` were recovered, the collection keeps them all and may exceed
`count`, as the counterexample shows). -/
theorem claim_C1_amended (p : PoolState) (run_id uuid : String) (count : Nat)
    (instType region : String) (now : Int) (runInstances : Nat → List Inst)
    (hreg : region ∈ AWS_REGIONS)
    (hrun : ∀ n, (runInstances n).length = n) :
    ((request_instances p run_id uuid count instType region false now
        runInstances).toOption.map (fun r => r.1) =
      some (p.recovered (run_id, uuid))) ∧
    ((p.recovered (run_id, uuid)).length < count →
      (request_instances p run_id uuid count instType region true now
          runInstances).toOption.map (fun r => r.1.length) = some count) := by
  have hreg' : ¬region ∉ AWS_REGIONS := by simpa using hreg
  constructor
  · simp only [request_instances, if_neg hreg']
    rfl
  · intro hlt
    have hfound :
        (((locate_existing_instances now (locate_recovered_instances p run_id uuid).2
            ((count : Int) - (p.recovered (run_id, uuid)).length) instType region).1.length : Int))
          ≤ (count : Int) - (p.recovered (run_id, uuid)).length := by
      apply locate_scan_length_le
      simpa using by omega
    simp only [request_instances, if_neg hreg', Bool.not_true, Bool.false_eq_true, if_false,
      locate_recovered_instances] at hfound ⊢
    set found :=
      (locate_existing_instances now
        ({ p with recovered := fun k => if k = (run_id, uuid) then [] else p.recovered k })
        ((count : Int) - (p.recovered (run_id, uuid)).length) instType region).1 with hfound_def
    by_cases hnum : ((count : Int) - ((p.recovered (run_id, uuid) ++ found).length : Int) > 0)
    · simp only [if_pos hnum, Except.toOption, Option.map]
      simp only [List.length_append] at hnum ⊢
      rw [hrun]
      congr 1
      omega
    · simp only [if_neg hnum, Except.toOption, Option.map]
      simp only [List.length_append] at hnum ⊢
      congr 1
      omega

/-- Witness for claim C1 (amended) at a concrete pool: nothing recovered,
`count = 1`, a full-allocation IaaS. -/
theorem claim_C1_witness :
    (request_instances poolEmpty "run1" "step1" 1 "t1.micro" "us-west-2" true 0
        freshInstances).toOption.map (fun r => r.1.length) = some 1 :=
  (claim_C1_amended poolEmpty "run1" "step1" 1 "t1.micro" "us-west-2" 0
      freshInstances (by decide)
      (fun n => by simp [freshInstances])).2 (by decide)

/-- Claim C2 (counterexample): when `_initialize` raises, `start` runs the
cleanup path and the run's final state is still `Initializing`, not
`Completed`. -/
theorem claim_C2_counterexample :
    start_run true false false INITIALIZING = INITIALIZING ∧
    INITIALIZING ≠ COMPLETED := by
  exact ⟨rfl, by decide⟩

/-- Claim C2 (amended): an execution of `RunManager.start` in which
`_initialize`, `_run` and `_shutdown` all return ends with the run
`Completed`; when a phase raises, `_cleanup` runs but never writes
`run.state`, so the run ends in the state the raising phase left it:
`Initializing`, `Running` or `Terminating` respectively. -/
theorem claim_C2_amended (initRaises runRaises shutdownRaises : Bool) :
    start_run initRaises runRaises shutdownRaises INITIALIZING =
      if initRaises then INITIALIZING
      else if runRaises then RUNNING
      else if shutdownRaises then TERMINATING
      else COMPLETED := by
  cases initRaises <;> cases runRaises <;> cases shutdownRaises <;> rfl

/-- Claim C3 (counterexample): when `_start_step` raises, `_check_steps`
still sets `started_at` (here to the pass timestamp 7) in addition to
`failed`; it does not stay unset as the claim states. -/
theorem claim_C3_counterexample :
    (start_step_pass true 7 recNone).startedAt = some 7 ∧
    (start_step_pass true 7 recNone).failed = true := by
  exact ⟨rfl, rfl⟩

/-- Claim C3 (amended): `_check_steps` sets `started_at` after every start
attempt, whether or not `_start_step` raised (a raise additionally sets
`failed`), and its shutdown wrapper sets `completed_at` after every stop
attempt, whether or not `_stop_step` raised. -/
theorem claim_C3_amended (raises : Bool) (now : Nat) (rec : StepRecord) :
    (start_step_pass raises now rec).startedAt = some now ∧
    (start_step_pass raises now rec).failed = (raises || rec.failed) ∧
    (start_step_pass raises now rec).completedAt = rec.completedAt ∧
    (shutdown_step_pass raises now rec).completedAt = some now ∧
    (shutdown_step_pass raises now rec).startedAt = rec.startedAt := by
  cases raises <;> simp [start_step_pass, shutdown_step_pass]

/-- Claim C5 (code bug, evaluated at the failing input): `_stop_step` on an
unfinished collection runs the stop actions in order (containers, heka, dns),
but because `remove_dead_instances()` is called without `yield`, the dead
instance is still in the collection afterwards — awaiting it would have
removed the instance. -/
theorem claim_C5_code_bug :
    (stop_step collWithDead).1 =
      [StopAction.stopContainers, StopAction.stopHeka, StopAction.stopDns] ∧
    dead_instances (stop_step collWithDead).2 = [instDead] ∧
    remove_dead_instances (stop_step collWithDead).2 ≠ (stop_step collWithDead).2 := by
  decide

/-- Claim C10: `_stop_step` returns immediately, with no stop actions, on a
collection already marked finished, and stopping twice equals stopping once
(the second call sees `finished = true` and is a no-op). -/
theorem claim_C10 (c : Coll) :
    (c.finished = true → stop_step c = ([], c)) ∧
    stop_step (stop_step c).2 = ([], (stop_step c).2) := by
  constructor
  · intro h; simp [stop_step, h]
  · by_cases h : c.finished <;> simp [stop_step, h]

/-- Witness for claim C10 at a concrete finished collection. -/
theorem claim_C10_witness : stop_step collFinished = ([], collFinished) :=
  (claim_C10 collFinished).1 rfl

/-- Behaviour of the tag retry loop, by induction on the remaining budget:
at most `budget + 1` attempts are made, every pair of consecutive attempts is
separated by exactly one one-second wait, and when every reachable attempt
fails the loop makes exactly `budget + 1` attempts and surfaces the
exception. -/
theorem tag_attempt_loop_spec (fails : Nat → Bool) :
    ∀ budget retries,
      (tag_attempt_loop fails budget retries).1 ≤ budget + 1 ∧
      (tag_attempt_loop fails budget retries).2.1 + 1 =
        (tag_attempt_loop fails budget retries).1 ∧
      ((∀ k, retries ≤ k → k ≤ retries + budget → fails k = true) →
        tag_attempt_loop fails budget retries = (budget + 1, budget, false)) := by
  intro budget
  induction budget with
  | zero =>
    intro retries
    by_cases h : fails retries = true
    · refine ⟨?_, ?_, ?_⟩ <;> simp [tag_attempt_loop, h]
    · simp only [Bool.not_eq_true] at h
      refine ⟨?_, ?_, ?_⟩ <;> simp [tag_attempt_loop, h]
      exact ⟨retries, le_rfl, by omega, h⟩
  | succ b ih =>
    intro retries
    by_cases h : fails retries = true
    · refine ⟨?_, ?_, ?_⟩
      · simp only [tag_attempt_loop, h, if_true]
        have := (ih (retries + 1)).1
        omega
      · simp only [tag_attempt_loop, h, if_true]
        have := (ih (retries + 1)).2.1
        omega
      · intro hall
        simp only [tag_attempt_loop, h, if_true]
        have hrec := (ih (retries + 1)).2.2
          (fun k hk1 hk2 => hall k (by omega) (by omega))
        rw [hrec]
    · simp only [Bool.not_eq_true] at h
      refine ⟨?_, ?_, ?_⟩ <;> simp [tag_attempt_loop, h]
      exact ⟨retries, le_rfl, by omega, h⟩

/-- Claim C6 (counterexample): when every `create_tags` call fails, the call
is attempted 7 times before the exception surfaces, not at most 6. -/
theorem claim_C6_counterexample :
    (tag_instance (fun _ => true)).1 = 7 ∧
    (tag_instance (fun _ => true)).2.2 = false := by
  decide

/-- Claim C6 (amended): for every instance being tagged, `create_tags` is
attempted at most 7 times (the first try plus 6 retries, since the loop
re-raises only when `retries > 5`), with a one-second wait between consecutive
attempts, and when all 7 attempts fail the exception is surfaced to the
caller. -/
theorem claim_C6_amended (fails : Nat → Bool) :
    (tag_instance fails).1 ≤ 7 ∧
    (tag_instance fails).2.1 + 1 = (tag_instance fails).1 ∧
    ((∀ k, k ≤ 6 → fails k = true) → tag_instance fails = (7, 6, false)) := by
  obtain ⟨h1, h2, h3⟩ := tag_attempt_loop_spec fails 6 0
  exact ⟨h1, h2, fun hall => h3 (fun k hk1 hk2 => hall k (by omega))⟩

/-- Witness for claim C6 (amended): with every attempt failing, the loop
makes exactly 7 attempts and 6 waits and surfaces the exception. -/
theorem claim_C6_witness : tag_instance (fun _ => true) = (7, 6, false) :=
  (claim_C6_amended (fun _ => true)).2.2 (fun _ _ => rfl)

/-- Claim C7 (counterexample): `DELETE /api/run/{id}?purge=0` on a Completed
run does not return 400 — the handler tests the argument's truthiness, and the
string `"0"` is truthy, so the run is aborted and its record deleted with
status 200. -/
theorem claim_C7_counterexample :
    (run_handler_delete (some COMPLETED) (some "0")).status = 200 ∧
    (run_handler_delete (some COMPLETED) (some "0")).runDeleted = true := by
  decide

/-- Claim C7 (amended): the handler returns 404 when no run has the uuid;
it returns 400 when the run is Completed and the purge argument is absent
(the argument is tested for presence/non-emptiness, never parsed, so
`purge=0` counts as purge requested); and with any non-empty purge value —
`purge=1` on a non-Completed run in particular — it succeeds with status 200
by first aborting the run and then deleting its record. -/
theorem claim_C7_amended (st : Nat) (arg : Option String) :
    run_handler_delete none arg = ⟨404, [], false, none⟩ ∧
    (run_handler_delete (some COMPLETED) none).status = 400 ∧
    (truthy_arg arg = true →
      run_handler_delete (some st) arg =
        ⟨200, [DelAction.abortRun, DelAction.deleteRun], true, none⟩) := by
  refine ⟨rfl, rfl, fun h => ?_⟩
  simp [run_handler_delete, h]

/-- Witness for claim C7 (amended): `purge=1` on a Running run aborts then
deletes. -/
theorem claim_C7_witness :
    run_handler_delete (some RUNNING) (some "1") =
      ⟨200, [DelAction.abortRun, DelAction.deleteRun], true, none⟩ :=
  (claim_C7_amended RUNNING (some "1")).2.2 (by decide)

/-- Claim C8: `available_instance` is true exactly for running instances and
for pending instances launched strictly later than two minutes before now;
a pending instance observed pending for exactly two minutes is unavailable. -/
theorem claim_C8 (now : Int) (inst : Inst) :
    (available_instance now inst = true ↔
      inst.state = "running" ∨
        (inst.state = "pending" ∧ now - 120 < inst.launchTime)) ∧
    (inst.state = "pending" → inst.launchTime = now - 120 →
      available_instance now inst = false) := by
  constructor
  · unfold available_instance
    split_ifs with h1 h2
    · simp [h1]
    · simp [h1, h2]
    · simp [h1, h2]
  · intro hp hl
    unfold available_instance
    rw [hp]
    simp [hl]

/-- Witness for claim C8 at the boundary: a pending instance launched exactly
two minutes ago is unavailable. -/
theorem claim_C8_witness : available_instance 120 instPendingBoundary = false :=
  (claim_C8 120 instPendingBoundary).2 rfl (by decide)

/-- With `prune=False`, the per-instance closure of `Docker.is_running`
returns the instance unchanged. -/
theorem has_container_false_fst (name : String) (i : Inst) :
    (has_container false name i).1 = i := by
  cases hc : i.containers <;> simp [has_container, hc]

/-- With `prune=False`, the fan-out of `Docker.is_running` leaves every
instance unchanged. -/
theorem is_running_scan_false_fst (name : String) :
    ∀ l, (is_running_scan false name l).1 = l := by
  intro l
  induction l with
  | nil => rfl
  | cons i rest ih =>
    simp only [is_running_scan]
    by_cases h : i.state = "running"
    · simp [h, ih, has_container_false_fst]
    · simp [h, ih]

/-- With `prune=False`, a running instance whose inventory call raises makes
the aggregated `any(results)` true. -/
theorem is_running_scan_false_any (name : String) :
    ∀ l : List Inst, (∃ i ∈ l, i.state = "running" ∧ i.containers = none) →
      ((is_running_scan false name l).2.any (fun b => b)) = true := by
  intro l
  induction l with
  | nil => rintro ⟨i, hi, _⟩; simp at hi
  | cons j rest ih =>
    rintro ⟨i, hi, hrun, hcon⟩
    rcases List.mem_cons.mp hi with rfl | hmem
    · simp only [is_running_scan, if_pos hrun]
      simp [has_container, hcon]
    · simp only [is_running_scan]
      by_cases hj : j.state = "running"
      · simp only [if_pos hj, List.any_cons]
        rw [ih ⟨i, hmem, hrun, hcon⟩]
        simp
      · simp only [if_neg hj]
        exact ih ⟨i, hmem, hrun, hcon⟩

/-- Claim C9: with `prune=False`, `Docker.is_running` leaves the collection's
instances untouched (no nonresponsive flags set) and answers true whenever a
running instance's inventory call raises; per instance, a raising inventory
call yields result true (counted as still running) with `prune=False`, and
only with `prune=True` marks the instance nonresponsive and yields result
false. -/
theorem claim_C9 (c : Coll) (name : String) :
    ((is_running false name c).1 = c) ∧
    ((∃ i ∈ c.instances, i.state = "running" ∧ i.containers = none) →
      (is_running false name c).2 = true) ∧
    (∀ i : Inst, i.containers = none →
      has_container false name i = (i, true) ∧
      has_container true name i = ({ i with nonresponsive := true }, false)) := by
  refine ⟨?_, ?_, ?_⟩
  · show ({ c with instances := (is_running_scan false name c.instances).1 } : Coll) = c
    rw [is_running_scan_false_fst]
  · intro hex
    exact is_running_scan_false_any name c.instances hex
  · intro i hc
    exact ⟨by simp [has_container, hc], by simp [has_container, hc]⟩

/-- Witness for claim C9 at a concrete collection holding one running
instance whose inventory call raises. -/
theorem claim_C9_witness : (is_running false "tester" collInventoryRaises).2 = true :=
  (claim_C9 collInventoryRaises "tester").2.1
    ⟨instInventoryRaises, by decide, rfl, rfl⟩

/-- Reading the written index after `List.set` in range. -/
theorem list_getD_set_eq {α : Type} (v d : α) :
    ∀ (l : List α) (k : Nat), k < l.length → (l.set k v).getD k d = v := by
  intro l
  induction l with
  | nil => intro k h; simp at h
  | cons a t ih =>
    intro k h
    cases k with
    | zero => rfl
    | succ n =>
      simp only [List.set, List.getD_cons_succ]
      exact ih n (by simpa using h)

/-- Reading another index after `List.set`. -/
theorem list_getD_set_ne {α : Type} (v d : α) :
    ∀ (l : List α) (k m : Nat), k ≠ m → (l.set k v).getD m d = l.getD m d := by
  intro l
  induction l with
  | nil => intro k m _; rfl
  | cons a t ih =>
    intro k m hne
    cases k with
    | zero =>
      cases m with
      | zero => exact absurd rfl hne
      | succ n => rfl
    | succ k' =>
      cases m with
      | zero => rfl
      | succ n =>
        simp only [List.set, List.getD_cons_succ]
        exact ih k' n (by omega)

/-- Reading out of range gives the default. -/
theorem list_getD_len_le {α : Type} (d : α) :
    ∀ (l : List α) (k : Nat), l.length ≤ k → l.getD k d = d := by
  intro l
  induction l with
  | nil => intro k _; rfl
  | cons a t ih =>
    intro k h
    cases k with
    | zero => simp at h
    | succ n =>
      simp only [List.getD_cons_succ]
      exact ih n (by simpa using h)

/-- Characterization of one start iteration: the started index gets the
sequence number, everything else (and every `run_delay`) is unchanged. -/
theorem getD_start_one (counter idx : Nat) (links : List SLink) (m : Nat) :
    (start_one counter idx links).getD m default =
      if m = idx ∧ idx < links.length then
        { links.getD idx default with startedAt := some counter }
      else links.getD m default := by
  unfold start_one
  by_cases hm : m = idx
  · subst hm
    by_cases hl : m < links.length
    · rw [if_pos ⟨rfl, hl⟩]
      exact list_getD_set_eq _ _ links m hl
    · rw [if_neg (by tauto)]
      rw [List.set_eq_of_length_le (by omega)]
  · rw [if_neg (by tauto)]
    exact list_getD_set_ne _ _ links _ m (by omega)

/-- `start_one` preserves length. -/
theorem start_one_length (counter idx : Nat) (links : List SLink) :
    (start_one counter idx links).length = links.length := by
  simp [start_one]

/-- `start_all` preserves length. -/
theorem start_all_length :
    ∀ (sorted : List Nat) (counter : Nat) (links : List SLink),
      (start_all counter sorted links).length = links.length := by
  intro sorted
  induction sorted with
  | nil => intro counter links; rfl
  | cons i rest ih =>
    intro counter links
    simp only [start_all]
    rw [ih, start_one_length]

/-- Indices not in the processed list are untouched by `start_all`. -/
theorem start_all_not_mem :
    ∀ (sorted : List Nat) (counter : Nat) (links : List SLink) (k : Nat),
      k ∉ sorted →
      (start_all counter sorted links).getD k default = links.getD k default := by
  intro sorted
  induction sorted with
  | nil => intro counter links k _; rfl
  | cons i rest ih =>
    intro counter links k hk
    have hki : k ≠ i := fun e => hk (e ▸ List.mem_cons_self i rest)
    have hkr : k ∉ rest := fun e => hk (List.mem_cons_of_mem i e)
    simp only [start_all]
    rw [ih (counter + 1) (start_one counter i links) k hkr]
    rw [getD_start_one]
    rw [if_neg (by tauto)]

/-- Indices processed by `start_all` get a sequence number in
`[counter, counter + length)`, with everything else about their link
unchanged. -/
theorem start_all_mem :
    ∀ (sorted : List Nat) (counter : Nat) (links : List SLink) (k : Nat),
      sorted.Nodup → k ∈ sorted → k < links.length →
      ∃ m, counter ≤ m ∧ m < counter + sorted.length ∧
        (start_all counter sorted links).getD k default =
          { links.getD k default with startedAt := some m } := by
  intro sorted
  induction sorted with
  | nil => intro counter links k _ hk _; simp at hk
  | cons i rest ih =>
    intro counter links k hnd hk hlen
    obtain ⟨hir, hndr⟩ := List.nodup_cons.mp hnd
    rcases List.mem_cons.mp hk with rfl | hmem
    · refine ⟨counter, le_rfl, by simp, ?_⟩
      simp only [start_all]
      rw [start_all_not_mem rest (counter + 1) _ k hir]
      rw [getD_start_one, if_pos ⟨rfl, hlen⟩]
    · have hki : k ≠ i := fun e => hir (e ▸ hmem)
      simp only [start_all]
      obtain ⟨m, hm1, hm2, hm3⟩ := ih (counter + 1) (start_one counter i links) k hndr hmem
        (by rw [start_one_length]; exact hlen)
      refine ⟨m, by omega, by simp only [List.length_cons]; omega, ?_⟩
      rw [hm3, getD_start_one, if_neg (by tauto)]

/-- Two indices both processed by `start_all`, the first with a strictly
smaller key in a key-sorted nodup list, receive strictly increasing sequence
numbers. -/
theorem start_all_order (key : Nat → Nat) :
    ∀ (sorted : List Nat) (counter : Nat) (links : List SLink) (i j : Nat),
      sorted.Nodup →
      List.Pairwise (fun a b => key a ≤ key b) sorted →
      i ∈ sorted → j ∈ sorted → key i < key j →
      i < links.length → j < links.length →
      ∃ a b,
        (start_all counter sorted links).getD i default =
          { links.getD i default with startedAt := some a } ∧
        (start_all counter sorted links).getD j default =
          { links.getD j default with startedAt := some b } ∧ a < b := by
  intro sorted
  induction sorted with
  | nil => intro counter links i j _ _ hi; simp at hi
  | cons h rest ih =>
    intro counter links i j hnd hpw hi hj hkey hli hlj
    obtain ⟨hhr, hndr⟩ := List.nodup_cons.mp hnd
    obtain ⟨hall, hpwr⟩ := List.pairwise_cons.mp hpw
    have hij : i ≠ j := fun e => absurd hkey (by rw [e]; exact lt_irrefl _)
    rcases List.mem_cons.mp hi with rfl | hir
    · have hjr : j ∈ rest := by
        rcases List.mem_cons.mp hj with hji | h2
        · exact absurd hji.symm hij
        · exact h2
      simp only [start_all]
      have hifin :
          (start_all (counter + 1) rest (start_one counter i links)).getD i default =
            { links.getD i default with startedAt := some counter } := by
        rw [start_all_not_mem rest _ _ i hhr, getD_start_one, if_pos ⟨rfl, hli⟩]
      obtain ⟨m, hm1, _, hm3⟩ := start_all_mem rest (counter + 1)
        (start_one counter i links) j hndr hjr (by rw [start_one_length]; exact hlj)
      refine ⟨counter, m, hifin, ?_, by omega⟩
      rw [hm3, getD_start_one, if_neg (fun hc => hij hc.1.symm)]
    · rcases List.mem_cons.mp hj with rfl | hjr
      · exact absurd (hall i hir) (not_le.mpr hkey)
      · simp only [start_all]
        obtain ⟨a, b, ha, hb, hab⟩ := ih (counter + 1) (start_one counter h links) i j
          hndr hpwr hir hjr hkey
          (by rw [start_one_length]; exact hli)
          (by rw [start_one_length]; exact hlj)
        have hih : i ≠ h := fun e => hhr (e ▸ hir)
        have hjh : j ≠ h := fun e => hhr (e ▸ hjr)
        have hsi : (start_one counter h links).getD i default = links.getD i default := by
          rw [getD_start_one, if_neg (by tauto)]
        have hsj : (start_one counter h links).getD j default = links.getD j default := by
          rw [getD_start_one, if_neg (by tauto)]
        exact ⟨a, b, by rw [ha, hsi], by rw [hb, hsj], hab⟩

/-- Membership in the stable insertion. -/
theorem mem_insert_by_key (key : Nat → Nat) (i a : Nat) :
    ∀ l, a ∈ insert_by_key key i l ↔ a = i ∨ a ∈ l := by
  intro l
  induction l with
  | nil => simp [insert_by_key]
  | cons j rest ih =>
    simp only [insert_by_key]
    by_cases h : key j < key i
    · simp only [if_pos h, List.mem_cons, ih]
      tauto
    · simp [if_neg h, List.mem_cons]

/-- Stable insertion permutes consing. -/
theorem insert_by_key_perm (key : Nat → Nat) (i : Nat) :
    ∀ l, List.Perm (insert_by_key key i l) (i :: l) := by
  intro l
  induction l with
  | nil => exact List.Perm.refl _
  | cons j rest ih =>
    simp only [insert_by_key]
    by_cases h : key j < key i
    · rw [if_pos h]
      exact (ih.cons j).trans (List.Perm.swap i j rest)
    · rw [if_neg h]

/-- The stable sort is a permutation of its input. -/
theorem sort_by_key_perm (key : Nat → Nat) :
    ∀ l, List.Perm (sort_by_key key l) l := by
  intro l
  induction l with
  | nil => exact List.Perm.refl _
  | cons i rest ih =>
    simp only [sort_by_key]
    exact (insert_by_key_perm key i (sort_by_key key rest)).trans (ih.cons i)

/-- Membership in the stable sort. -/
theorem mem_sort_by_key (key : Nat → Nat) (a : Nat) (l : List Nat) :
    a ∈ sort_by_key key l ↔ a ∈ l :=
  (sort_by_key_perm key l).mem_iff

/-- The stable sort preserves nodup. -/
theorem nodup_sort_by_key (key : Nat → Nat) (l : List Nat) (h : l.Nodup) :
    (sort_by_key key l).Nodup :=
  (sort_by_key_perm key l).symm.nodup h

/-- Stable insertion preserves key-sortedness. -/
theorem pairwise_insert_by_key (key : Nat → Nat) (i : Nat) :
    ∀ l, List.Pairwise (fun a b => key a ≤ key b) l →
      List.Pairwise (fun a b => key a ≤ key b) (insert_by_key key i l) := by
  intro l
  induction l with
  | nil => intro _; simp [insert_by_key]
  | cons j rest ih =>
    intro hp
    obtain ⟨hall, hrest⟩ := List.pairwise_cons.mp hp
    simp only [insert_by_key]
    by_cases h : key j < key i
    · rw [if_pos h]
      refine List.pairwise_cons.mpr ⟨?_, ih hrest⟩
      intro b hb
      rcases (mem_insert_by_key key i b rest).mp hb with rfl | hbr
      · exact le_of_lt h
      · exact hall b hbr
    · rw [if_neg h]
      refine List.pairwise_cons.mpr ⟨?_, hp⟩
      intro b hb
      rcases List.mem_cons.mp hb with rfl | hbr
      · exact not_lt.mp h
      · exact le_trans (not_lt.mp h) (hall b hbr)

/-- The stable sort is key-sorted. -/
theorem pairwise_sort_by_key (key : Nat → Nat) :
    ∀ l, List.Pairwise (fun a b => key a ≤ key b) (sort_by_key key l) := by
  intro l
  induction l with
  | nil => simp [sort_by_key]
  | cons i rest ih => exact pairwise_insert_by_key key i _ ih

/-- Membership in the candidate list is exactly `should_start`. -/
theorem mem_sched_candidates (runStart now : Nat) (links : List SLink) (k : Nat) :
    k ∈ sched_candidates runStart now links ↔
      k < links.length ∧ (links.getD k default).startedAt = none ∧
        runStart + (links.getD k default).runDelay ≤ now := by
  simp [sched_candidates, should_start, List.mem_filter, List.mem_range,
    Option.isNone_iff_eq_none, and_assoc]

/-- The candidate list has no duplicate indices. -/
theorem nodup_sched_candidates (runStart now : Nat) (links : List SLink) :
    (sched_candidates runStart now links).Nodup :=
  (List.nodup_range _).filter _

/-- The sorted candidate list has no duplicate indices. -/
theorem nodup_sched_sorted (runStart now : Nat) (links : List SLink) :
    (sched_sorted runStart now links).Nodup :=
  nodup_sort_by_key _ _ (nodup_sched_candidates runStart now links)

/-- The sorted candidate list is sorted by ascending `run_delay`. -/
theorem pairwise_sched_sorted (runStart now : Nat) (links : List SLink) :
    List.Pairwise (fun a b => sched_key links a ≤ sched_key links b)
      (sched_sorted runStart now links) :=
  pairwise_sort_by_key _ _

/-- Membership in the sorted candidate list. -/
theorem mem_sched_sorted (runStart now : Nat) (links : List SLink) (k : Nat) :
    k ∈ sched_sorted runStart now links ↔
      k < links.length ∧ (links.getD k default).startedAt = none ∧
        runStart + (links.getD k default).runDelay ≤ now := by
  unfold sched_sorted
  rw [mem_sort_by_key]
  exact mem_sched_candidates runStart now links k

/-- `start_all` never changes a step's `run_delay`. -/
theorem start_all_key (runStart now counter : Nat) (links : List SLink) (k : Nat) :
    sched_key (start_all counter (sched_sorted runStart now links) links) k =
      sched_key links k := by
  by_cases hm : k ∈ sched_sorted runStart now links
  · have hk : k < links.length := ((mem_sched_sorted runStart now links k).mp hm).1
    obtain ⟨m, _, _, h3⟩ := start_all_mem _ counter links k
      (nodup_sched_sorted runStart now links) hm hk
    unfold sched_key
    rw [h3]
  · unfold sched_key
    rw [start_all_not_mem _ counter links k hm]

/-- One scheduler pass preserves the scheduler invariant. -/
theorem sched_pass_inv (runStart now counter : Nat) (links : List SLink)
    (h : SchedInv counter links) :
    SchedInv (sched_pass runStart now counter links).2
      (sched_pass runStart now counter links).1 := by
  obtain ⟨h1, h2, h3⟩ := h
  have hnd := nodup_sched_sorted runStart now links
  have hpw := pairwise_sched_sorted runStart now links
  simp only [sched_pass]
  refine ⟨?_, ?_, ?_⟩
  · intro k t hk ht
    have hk' : k < links.length := by rwa [start_all_length] at hk
    by_cases hm : k ∈ sched_sorted runStart now links
    · obtain ⟨m, hm1, hm2, hm3⟩ := start_all_mem _ counter links k hnd hm hk'
      rw [hm3] at ht
      simp only [Option.some.injEq] at ht
      omega
    · rw [start_all_not_mem _ counter links k hm] at ht
      have := h1 k t hk' ht
      omega
  · intro k m hk hm hkey hsome
    have hk' : k < links.length := by rwa [start_all_length] at hk
    have hm' : m < links.length := by rwa [start_all_length] at hm
    have hkey' : sched_key links k < sched_key links m := by
      rwa [start_all_key, start_all_key] at hkey
    by_cases hmS : m ∈ sched_sorted runStart now links
    · by_cases hkS : k ∈ sched_sorted runStart now links
      · obtain ⟨mk, _, _, hk3⟩ := start_all_mem _ counter links k hnd hkS hk'
        rw [hk3]
        rfl
      · rw [start_all_not_mem _ counter links k hkS]
        by_cases hnone : (links.getD k default).startedAt = none
        · exfalso
          apply hkS
          rw [mem_sched_sorted]
          refine ⟨hk', hnone, ?_⟩
          have hmcond := (mem_sched_sorted runStart now links m).mp hmS
          unfold sched_key at hkey'
          omega
        · exact Option.ne_none_iff_isSome.mp hnone
    · rw [start_all_not_mem _ counter links m hmS] at hsome
      have hks := h2 k m hk' hm' hkey' hsome
      by_cases hkS : k ∈ sched_sorted runStart now links
      · obtain ⟨mk, _, _, hk3⟩ := start_all_mem _ counter links k hnd hkS hk'
        rw [hk3]
        rfl
      · rw [start_all_not_mem _ counter links k hkS]
        exact hks
  · intro k m a b hk hm hkey hka hmb
    have hk' : k < links.length := by rwa [start_all_length] at hk
    have hm' : m < links.length := by rwa [start_all_length] at hm
    have hkey' : sched_key links k < sched_key links m := by
      rwa [start_all_key, start_all_key] at hkey
    by_cases hkS : k ∈ sched_sorted runStart now links <;>
      by_cases hmS : m ∈ sched_sorted runStart now links
    · obtain ⟨a', b', ha', hb', hab⟩ := start_all_order (sched_key links) _ counter links
        k m hnd hpw hkS hmS hkey' hk' hm'
      rw [ha'] at hka
      rw [hb'] at hmb
      simp only [Option.some.injEq] at hka hmb
      omega
    · exfalso
      rw [start_all_not_mem _ counter links m hmS] at hmb
      have hsome : ((links.getD m default).startedAt).isSome = true := by
        rw [hmb]; rfl
      have hks := h2 k m hk' hm' hkey' hsome
      have hkcond := (mem_sched_sorted runStart now links k).mp hkS
      rw [hkcond.2.1] at hks
      simp at hks
    · rw [start_all_not_mem _ counter links k hkS] at hka
      have hlt := h1 k a hk' hka
      obtain ⟨mb, hmb1, _, hmb3⟩ := start_all_mem _ counter links m hnd hmS hm'
      rw [hmb3] at hmb
      simp only [Option.some.injEq] at hmb
      omega
    · rw [start_all_not_mem _ counter links k hkS] at hka
      rw [start_all_not_mem _ counter links m hmS] at hmb
      exact h3 k m a b hk' hm' hkey' hka hmb

/-- The polling loop preserves the scheduler invariant. -/
theorem sched_loop_inv (runStart : Nat) :
    ∀ (times : List Nat) (counter : Nat) (links : List SLink),
      SchedInv counter links →
      SchedInv (sched_loop runStart times counter links).2
        (sched_loop runStart times counter links).1 := by
  intro times
  induction times with
  | nil => intro counter links h; exact h
  | cons now rest ih =>
    intro counter links h
    simp only [sched_loop]
    exact ih _ _ (sched_pass_inv runStart now counter links h)

/-- The polling loop preserves the number of step links. -/
theorem sched_loop_length (runStart : Nat) :
    ∀ (times : List Nat) (counter : Nat) (links : List SLink),
      (sched_loop runStart times counter links).1.length = links.length := by
  intro times
  induction times with
  | nil => intro counter links; rfl
  | cons now rest ih =>
    intro counter links
    simp only [sched_loop]
    rw [ih]
    simp only [sched_pass]
    exact start_all_length _ _ _

/-- The polling loop never changes a step's `run_delay`. -/
theorem sched_loop_key (runStart : Nat) :
    ∀ (times : List Nat) (counter : Nat) (links : List SLink) (k : Nat),
      sched_key (sched_loop runStart times counter links).1 k = sched_key links k := by
  intro times
  induction times with
  | nil => intro counter links k; rfl
  | cons now rest ih =>
    intro counter links k
    simp only [sched_loop]
    rw [ih]
    simp only [sched_pass]
    exact start_all_key runStart now counter links k

/-- Elements read by `getD` in range are members. -/
theorem list_getD_mem {α : Type} (d : α) :
    ∀ (l : List α) (k : Nat), k < l.length → l.getD k d ∈ l := by
  intro l
  induction l with
  | nil => intro k h; simp at h
  | cons a t ih =>
    intro k h
    cases k with
    | zero => exact List.mem_cons_self a t
    | succ n =>
      simp only [List.getD_cons_succ]
      exact List.mem_cons_of_mem a (ih n (by simpa using h))

/-- Claim C4: in the run loop of `_check_steps` (any number of passes, each
pass filtering by `should_start`, sorting candidates by ascending `run_delay`,
and starting them one at a time), a step with a strictly smaller `run_delay`
that starts never gets a later start than a step with a larger `run_delay`:
its `started_at` sequence number is no larger. -/
theorem claim_C4 (runStart : Nat) (times : List Nat) (links0 : List SLink)
    (h0 : ∀ s ∈ links0, s.startedAt = none)
    (i j : Nat) (hi : i < links0.length) (hj : j < links0.length)
    (hd : (links0.getD i default).runDelay < (links0.getD j default).runDelay)
    (a b : Nat)
    (ha : ((sched_loop runStart times 0 links0).1.getD i default).startedAt = some a)
    (hb : ((sched_loop runStart times 0 links0).1.getD j default).startedAt = some b) :
    a ≤ b := by
  have hinv0 : SchedInv 0 links0 := by
    refine ⟨?_, ?_, ?_⟩
    · intro k t hk ht
      rw [h0 _ (list_getD_mem default links0 k hk)] at ht
      exact absurd ht (by simp)
    · intro k m hk hm _ hsome
      rw [h0 _ (list_getD_mem default links0 m hm)] at hsome
      exact absurd hsome (by simp)
    · intro k m a' b' hk hm _ hka _
      rw [h0 _ (list_getD_mem default links0 k hk)] at hka
      exact absurd hka (by simp)
  have hfin := sched_loop_inv runStart times 0 links0 hinv0
  refine hfin.2.2 i j a b ?_ ?_ ?_ ha hb
  · rw [sched_loop_length]; exact hi
  · rw [sched_loop_length]; exact hj
  · rw [sched_loop_key, sched_loop_key]
    exact hd

/-- Witness for claim C4: two steps with delays 0 and 1, one pass at time 10;
the smaller-delay step gets sequence number 0, the other 1, and the theorem
yields 0 ≤ 1. -/
theorem claim_C4_witness :
    ((sched_loop 0 [10] 0 linksTwo).1.getD 0 default).startedAt = some 0 ∧
    ((sched_loop 0 [10] 0 linksTwo).1.getD 1 default).startedAt = some 1 ∧
    (0 : Nat) ≤ 1 :=
  ⟨by decide, by decide,
    claim_C4 0 [10] linksTwo (by decide) 0 1 (by decide) (by decide) (by decide)
      0 1 (by decide) (by decide)⟩

end Loads
